import Mathlib

/-!
A verification development for the `prometheus-elb-discovery` program
(`prometheus-elb-discovery.go`).  The Go source is embedded shallowly:

* `ec2.Instance` / `elb.InstanceState` become structures carrying exactly
  the fields the program reads; the SDK's nullable `*string` private IP is
  an `Option String` (the program dereferences it without a nil check, so a
  missing address is modelled as a run-time error `nilDerefMsg`).
* Go maps become association lists; the places where the program iterates a
  map in unspecified order (`allTagKeys`, `marshalTargetGroups`) take the
  iteration as an explicit enumeration argument so that determinism can be
  stated as independence from the enumeration.
* `encoding/json.MarshalIndent` and `sort.Strings` are modelled by
  `renderTargetGroupList` and `sortStrings` following their documented
  behaviour (2-space indents, sorted map keys, HTML-escaping of strings,
  byte-lexicographic ascending sort).
* `ioutil.WriteFile` / `os.Rename` act on an abstract file system `FS`
  with injected failure outcomes.
-/

namespace ElbDiscovery

/-- `TargetGroup` from the source: `Targets` is the `targets` JSON array,
`Labels` the `labels` JSON object (a Go `map[string]string`, modelled as an
association list). -/
structure TargetGroup where
  Targets : List String
  Labels : List (String × String)
deriving DecidableEq, Repr

/-- `Tag` from the source: one parsed tag selector. -/
structure Tag where
  Key : String
  FilterName : String
  FilterValue : String
deriving DecidableEq, Repr

/-- `Tags` from the source. -/
abbrev Tags := List Tag

/-- The fields of `ec2.Instance` that the program reads: the lifecycle
state code (`*instance.State.Code`), the private IP address
(`*string`, nullable → `Option`), and the tag list. -/
structure EC2Instance where
  stateCode : Int
  privateIpAddress : Option String
  tags : List (String × String)
deriving DecidableEq, Repr

/-- The fields of `elb.InstanceState` that `filterHealthyInstances`
reads: the instance id and the health state string. -/
structure InstanceState where
  instanceId : String
  state : String
deriving DecidableEq, Repr

/-- The Go run-time panic message raised by dereferencing a nil
`PrivateIpAddress`. -/
def nilDerefMsg : String :=
  "runtime error: invalid memory address or nil pointer dereference"

/-- `filterHealthyInstances`: keep, in input order, the ids of the states
whose `State` is exactly `"InService"`. -/
def filterHealthyInstances (output : List InstanceState) : List String :=
  output.foldl
    (fun healthyInstances i =>
      if i.state = "InService" then healthyInstances ++ [i.instanceId]
      else healthyInstances) []

/-- `getTag`: the value of the first tag whose key matches, `""` if none. -/
def getTag (i : EC2Instance) (key : String) : String :=
  match i.tags.find? (fun t => t.1 == key) with
  | some t => t.2
  | none => ""

/-- Lookup in the `targetGroups` map (association list keyed by group key). -/
def lookupTG (m : List (String × TargetGroup)) (k : String) : Option TargetGroup :=
  (m.find? (fun e => e.1 == k)).map (·.2)

/-- The grouping key built in `groupByTags`:
`key = fmt.Sprintf("%s|%s=%s", key, tagKey, getTag(*instance, tagKey))`
folded over the tag keys, starting from `""`. -/
def groupKey (tagKeys : List String) (i : EC2Instance) : String :=
  tagKeys.foldl (fun key tagKey => key ++ "|" ++ tagKey ++ "=" ++ getTag i tagKey) ""

/-- Lexicographic comparison of character lists by code point; on valid
UTF-8 this agrees with Go's byte-wise string comparison. -/
def charListLe : List Char → List Char → Bool
  | [], _ => true
  | _ :: _, [] => false
  | a :: as, b :: bs =>
    if a.toNat < b.toNat then true
    else if b.toNat < a.toNat then false
    else charListLe as bs

/-- Go's `s <= t` on strings. -/
def strLe (a b : String) : Bool :=
  charListLe a.data b.data

/-- Insertion into a `map[string]string` kept in the canonical (sorted by
key) form in which Go observably marshals it. -/
def mapInsert (m : List (String × String)) (k v : String) : List (String × String) :=
  match m with
  | [] => [(k, v)]
  | (k', v') :: rest =>
    if k = k' then (k, v) :: rest
    else if strLe k k' then (k, v) :: (k', v') :: rest
    else (k', v') :: mapInsert rest k v

/-- The `labels` map populated on lazy group creation in `groupByTags`:
for every tag key, the instance's tag value, but only if non-empty. -/
def labelsFor (tagKeys : List String) (i : EC2Instance) : List (String × String) :=
  tagKeys.foldl
    (fun labels tagKey =>
      let tagVal := getTag i tagKey
      if tagVal ≠ "" then mapInsert labels tagKey tagVal else labels) []

/-- Adding a fresh entry to the `targetGroups` map (Go map insert, modelled
at the end of the association list). -/
def insertTG (m : List (String × TargetGroup)) (k : String) (g : TargetGroup) :
    List (String × TargetGroup) :=
  m ++ [(k, g)]

/-- `targetGroup.Targets = append(targetGroup.Targets, target)` through the
pointer stored in the map. -/
def appendTarget (m : List (String × TargetGroup)) (k : String) (t : String) :
    List (String × TargetGroup) :=
  m.map (fun e => if e.1 == k then (e.1, ⟨e.2.Targets ++ [t], e.2.Labels⟩) else e)

/-- The `targetGroup, ok := targetGroups[key]; if !ok { ... }` step: keep
the map if the key exists, otherwise lazily create the group with the
given labels and no targets. -/
def ensureTG (m : List (String × TargetGroup)) (k : String)
    (lbls : List (String × String)) : List (String × TargetGroup) :=
  match lookupTG m k with
  | some _ => m
  | none => insertTG m k ⟨[], lbls⟩

/-- The loop body of `groupByTags` over the instance list, carrying the
`targetGroups` map.  An instance whose state code is not 16 is skipped;
otherwise its group is looked up or lazily created with labels from the
instance, and `fmt.Sprintf("%s:%d", *instance.PrivateIpAddress, port)` is
appended.  A nil address panics (`Except.error`), discarding the map (in
the source the group is created before the panic, but a panic returns no
map at all, so the two orders are observationally equal). -/
def groupByTagsAux (tagKeys : List String) (port : Int) :
    List EC2Instance → List (String × TargetGroup) →
    Except String (List (String × TargetGroup))
  | [], targetGroups => .ok targetGroups
  | i :: rest, targetGroups =>
    if i.stateCode ≠ 16 then groupByTagsAux tagKeys port rest targetGroups
    else
      match i.privateIpAddress with
      | none => .error nilDerefMsg
      | some ip =>
          groupByTagsAux tagKeys port rest
            (appendTarget
              (ensureTG targetGroups (groupKey tagKeys i) (labelsFor tagKeys i))
              (groupKey tagKeys i) (ip ++ ":" ++ toString port))

/-- `groupByTags` from the source. -/
def groupByTags (instances : List EC2Instance) (tagKeys : List String) (port : Int) :
    Except String (List (String × TargetGroup)) :=
  groupByTagsAux tagKeys port instances []

/-- Models `sort.Strings`: ascending lexicographic sort. -/
def sortStrings (l : List String) : List String :=
  l.insertionSort (fun a b => strLe a b = true)

instance : {ε α : Type} → [DecidableEq ε] → [DecidableEq α] → DecidableEq (Except ε α) :=
  fun {_ _} _ _ a b =>
    match a, b with
    | .ok x, .ok y =>
      if h : x = y then .isTrue (by rw [h])
      else .isFalse (by intro hh; cases hh; exact h rfl)
    | .error x, .error y =>
      if h : x = y then .isTrue (by rw [h])
      else .isFalse (by intro hh; cases hh; exact h rfl)
    | .ok _, .error _ => .isFalse (by intro hh; cases hh)
    | .error _, .ok _ => .isFalse (by intro hh; cases hh)

/-- First-occurrence de-duplication: the key set of a Go map built by
repeated insertion, listed in insertion order. -/
def dedupKeys (l : List String) : List String :=
  l.foldl (fun acc k => if k ∈ acc then acc else acc ++ [k]) []

/-- The tag keys of one instance. -/
def instanceTagKeys (i : EC2Instance) : List String :=
  i.tags.map (·.1)

/-- The key set collected by `allTagKeys` before sorting (the `tagSet` map). -/
def collectTagKeys (instances : List EC2Instance) : List String :=
  dedupKeys (instances.map instanceTagKeys).flatten

/-- `allTagKeys` with the map-iteration order made explicit: the source
iterates `tagSet` in unspecified order into a slice and then sorts it. -/
def allTagKeysEnum (enum : List String) : List String :=
  sortStrings enum

/-- `allTagKeys` from the source: the union of all tag keys, sorted. -/
def allTagKeys (instances : List EC2Instance) : List String :=
  allTagKeysEnum (collectTagKeys instances)

/-- `Tags.Keys` loop: de-duplicated selector keys in first-occurrence order. -/
def keysAux : Tags → List String → List String
  | [], keys => keys
  | t :: rest, keys =>
    if t.Key ∈ keys then keysAux rest keys else keysAux rest (keys ++ [t.Key])

/-- `(tags Tags) Keys()` from the source. -/
def Tags.Keys (tags : Tags) : List String :=
  keysAux tags []

/-- `strings.Split` on a single-character separator, over the character
list: Go's `Split("", sep)` is `[""]`, and in general splitting yields one
field per separator occurrence plus one. -/
def splitOnChar (sep : Char) : List Char → List (List Char)
  | [] => [[]]
  | c :: rest =>
    if c = sep then [] :: splitOnChar sep rest
    else
      match splitOnChar sep rest with
      | [] => [[c]]
      | f :: fs => (c :: f) :: fs

/-- `strings.Split(s, sep)` for a one-character `sep`. -/
def goSplit (s : String) (sep : Char) : List String :=
  (splitOnChar sep s.data).map String.mk

/-- One field of the tag spec: `TagKey`, `TagKey=Value`, or a fatal
`log.Fatalf("Unrecognized tag filter %v", t)` for more than one `=`. -/
def parseField (t : String) : Except String Tag :=
  match goSplit t '=' with
  | [_] => .ok ⟨t, "tag-key", t⟩
  | [k, v] => .ok ⟨k, "tag:" ++ k, v⟩
  | _ => .error ("Unrecognized tag filter " ++ t)

/-- The field loop of `parseTags`: parse each field in order; the first
bad field is fatal (`log.Fatalf` exits at once, leaving no result). -/
def parseFieldsAux : List String → Except String Tags
  | [] => .ok []
  | t :: rest =>
    match parseField t with
    | .error e => .error e
    | .ok tag =>
      match parseFieldsAux rest with
      | .error e => .error e
      | .ok tags => .ok (tag :: tags)

/-- `parseTags` from the source: split on commas; the single empty field
yields the empty selector list; otherwise each field parses independently
and any bad field is fatal. -/
def parseTags (tagsRaw : String) : Except String Tags :=
  let fields := goSplit tagsRaw ','
  if fields = [""] then .ok []
  else parseFieldsAux fields

/-- A hexadecimal digit character, lower case, as produced by Go's JSON
encoder in `\u00XX` escapes. -/
def hexDigitChar (n : Nat) : Char :=
  if n < 10 then Char.ofNat (48 + n) else Char.ofNat (87 + n)

/-- Escaping of one character by `encoding/json` (HTML escaping on, the
`json.Marshal` default): quote, backslash, newline, carriage return and
tab get two-character escapes; other control characters and `<`, `>`, `&`
become `\u00XX`; U+2028 and U+2029 get their own escapes. -/
def escapeChar (c : Char) : String :=
  if c = '"' then "\\\""
  else if c = '\\' then "\\\\"
  else if c = '\n' then "\\n"
  else if c = '\r' then "\\r"
  else if c = '\t' then "\\t"
  else if c.toNat < 32 ∨ c = '<' ∨ c = '>' ∨ c = '&' then
    "\\u00" ++ String.mk [hexDigitChar (c.toNat / 16), hexDigitChar (c.toNat % 16)]
  else if c.toNat = 8232 then "\\u2028"
  else if c.toNat = 8233 then "\\u2029"
  else String.mk [c]

/-- A JSON string literal for `s`. -/
def jsonQuote (s : String) : String :=
  "\"" ++ String.join (s.data.map escapeChar) ++ "\""

/-- `depth` levels of the 2-space indent used by
`json.MarshalIndent(v, "", "  ")`. -/
def indentOf (depth : Nat) : String :=
  String.join (List.replicate depth "  ")

/-- Lookup in a `map[string]string`. -/
def lookupLabel (labels : List (String × String)) (k : String) : Option String :=
  (labels.find? (fun e => e.1 == k)).map (·.2)

/-- `MarshalIndent` of a `[]string` whose opening bracket sits at `depth`. -/
def renderStringArray (l : List String) (depth : Nat) : String :=
  if l = [] then "[]"
  else
    "[\n" ++ String.intercalate ",\n" (l.map (fun s => indentOf (depth + 1) ++ jsonQuote s)) ++
      "\n" ++ indentOf depth ++ "]"

/-- `MarshalIndent` of a `map[string]string`: Go marshals map keys in
ascending sorted order. -/
def renderLabels (labels : List (String × String)) (depth : Nat) : String :=
  let ks := sortStrings (dedupKeys (labels.map (·.1)))
  if ks = [] then "\x7b\x7d"
  else
    "\x7b\n" ++
      String.intercalate ",\n"
        (ks.map (fun k =>
          indentOf (depth + 1) ++ jsonQuote k ++ ": " ++
            jsonQuote ((lookupLabel labels k).getD ""))) ++
      "\n" ++ indentOf depth ++ "\x7d"

/-- `MarshalIndent` of one `TargetGroup` struct: fields in declaration
order, `targets` then `labels`. -/
def renderTargetGroup (g : TargetGroup) (depth : Nat) : String :=
  "\x7b\n" ++
    indentOf (depth + 1) ++ "\"targets\": " ++ renderStringArray g.Targets (depth + 1) ++
    ",\n" ++
    indentOf (depth + 1) ++ "\"labels\": " ++ renderLabels g.Labels (depth + 1) ++
    "\n" ++ indentOf depth ++ "\x7d"

/-- `json.MarshalIndent(tgList, "", "  ")` for the `[]*TargetGroup` slice. -/
def renderTargetGroupList (tgList : List TargetGroup) : String :=
  if tgList = [] then "[]"
  else
    "[\n" ++
      String.intercalate ",\n" (tgList.map (fun g => indentOf 1 ++ renderTargetGroup g 1)) ++
      "\n]"

/-- `marshalTargetGroups` with the map-iteration order made explicit: the
source collects the map's keys in unspecified order (`enum`), sorts them,
reads the groups back in sorted-key order and marshals the list. -/
def marshalWithEnum (enum : List String) (targetGroups : List (String × TargetGroup)) :
    String :=
  let keys := sortStrings enum
  let tgList := keys.filterMap (lookupTG targetGroups)
  renderTargetGroupList tgList

/-- `marshalTargetGroups` from the source. -/
def marshalTargetGroups (targetGroups : List (String × TargetGroup)) : String :=
  marshalWithEnum (targetGroups.map (·.1)) targetGroups

/-- An abstract file system: a map from path to content. -/
structure FS where
  files : List (String × String)
deriving DecidableEq, Repr

/-- The content at `path`, if the file exists. -/
def FS.lookup (fs : FS) (path : String) : Option String :=
  (fs.files.find? (fun e => e.1 == path)).map (·.2)

/-- Create or replace the file at `path`. -/
def FS.set (fs : FS) (path content : String) : FS :=
  ⟨(path, content) :: fs.files.filter (fun e => e.1 != path)⟩

/-- Delete the file at `path`. -/
def FS.remove (fs : FS) (path : String) : FS :=
  ⟨fs.files.filter (fun e => e.1 != path)⟩

/-- Injected outcomes for the two file-system calls of `atomicWriteFile`:
whether `ioutil.WriteFile` succeeds, what truncated content it leaves at
the temp path when it fails, and whether `os.Rename` succeeds. -/
structure WriteOracle where
  writeOk : Bool
  writeLeftover : String
  renameOk : Bool
deriving DecidableEq, Repr

/-- Models `ioutil.WriteFile(path, data, 0644)`: on success the file holds
`data`; on failure (permission, disk full) a truncated leftover may sit at
`path` and an error is returned. -/
def writeFileOp (fs : FS) (path data : String) (ok : Bool) (leftover : String) :
    Option String × FS :=
  if ok then (none, fs.set path data)
  else (some "write failed", fs.set path leftover)

/-- Models `os.Rename(src, dst)`: atomic — on success `src` is moved onto
`dst` wholesale, on failure nothing changes. -/
def renameOp (fs : FS) (src dst : String) (ok : Bool) : Option String × FS :=
  if ok then
    match fs.lookup src with
    | some content => (none, FS.set (fs.remove src) dst content)
    | none => (some "rename failed: no such file", fs)
  else (some "rename failed", fs)

/-- `atomicWriteFile` from the source: write `data` to
`filename + tmpSuffix`, then rename it onto `filename`; either error is
returned as-is. -/
def atomicWriteFile (filename data tmpSuffix : String) (fs : FS) (o : WriteOracle) :
    Option String × FS :=
  match writeFileOp fs (filename ++ tmpSuffix) data o.writeOk o.writeLeftover with
  | (some e, fs1) => (some e, fs1)
  | (none, fs1) => renameOp fs1 (filename ++ tmpSuffix) filename o.renameOk

/-- The observable output state of a run: the file system and what has
been written to standard output. -/
structure OutState where
  fs : FS
  stdout : String
deriving DecidableEq, Repr

/-- The tail of `main`: `dest == "-"` writes the bytes directly to
standard output, anything else goes through
`atomicWriteFile(dest, b, ".new")`. -/
def publish (dest : String) (b : String) (st : OutState) (o : WriteOracle) :
    Option String × OutState :=
  if dest = "-" then (none, ⟨st.fs, st.stdout ++ b⟩)
  else
    match atomicWriteFile dest b ".new" st.fs o with
    | (err, fs') => (err, ⟨fs', st.stdout⟩)

/-- The grouping keys used by `main`: the selector keys, or, when there
are none, the Key Discovery Fallback (`allTagKeys`, whose map-iteration
order is the explicit `eTag`). -/
def runKeys (tags : Tags) (eTag : List String) : List String :=
  let tagKeys := Tags.Keys tags
  if tagKeys.length = 0 then allTagKeysEnum eTag else tagKeys

/-- The core pipeline of `main` after the AWS calls, with the two
map-iteration orders (`eTag` for `allTagKeys`, `fGrp` for
`marshalTargetGroups`) made explicit: take the effective grouping keys,
group, marshal. -/
def runCore (instances : List EC2Instance) (tags : Tags) (port : Int)
    (eTag fGrp : List String) : Except String String :=
  match groupByTags instances (runKeys tags eTag) port with
  | .error e => .error e
  | .ok m => .ok (marshalWithEnum fGrp m)

/-- `main` up to its data flow: `initFlags` runs `parseTags` first, before
any AWS session or network call; a parse failure is `log.Fatalf`.  `net`
stands for the instance records a run would fetch afterwards. -/
def mainModel (tagsRaw : String) (port : Int) (net : List EC2Instance)
    (eTag fGrp : List String) : Except String String :=
  match parseTags tagsRaw with
  | .error e => .error e
  | .ok tags => runCore net tags port eTag fGrp

/-! Derived notions used to state the specification claims. -/

/-- The eligibility test of the grouping loop: lifecycle state code 16. -/
def isRunning (i : EC2Instance) : Bool :=
  i.stateCode == 16

/-- The target entry an instance yields, when it has a private address. -/
def mkTarget (port : Int) (i : EC2Instance) : Option String :=
  i.privateIpAddress.map (fun ip => ip ++ ":" ++ toString port)

/-- Whether an instance is Running and falls into the group keyed `k`. -/
def contributes (tagKeys : List String) (k : String) (i : EC2Instance) : Bool :=
  isRunning i && (groupKey tagKeys i == k)

/-- The target entries the instance list contributes to the group keyed
`k`, in input (first-seen) order. -/
def targetsFor (tagKeys : List String) (port : Int) (insts : List EC2Instance)
    (k : String) : List String :=
  (insts.filter (contributes tagKeys k)).filterMap (mkTarget port)

/-- The instance whose arrival lazily creates the group keyed `k`. -/
def firstCreator (tagKeys : List String) (insts : List EC2Instance) (k : String) :
    Option EC2Instance :=
  insts.find? (contributes tagKeys k)

/-- Reading a grouping signature back off a labels map: the signature any
instance with exactly these non-empty selector values would get. -/
def sigFromLabels (tagKeys : List String) (lbls : List (String × String)) : String :=
  tagKeys.foldl (fun acc k => acc ++ "|" ++ k ++ "=" ++ (lookupLabel lbls k).getD "") ""

/-- The Health Filter as the spec words it: the ordered subsequence of
identifiers whose status is exactly `"InService"`. -/
def healthFilterSpec (output : List InstanceState) : List String :=
  (output.filter (fun i => i.state = "InService")).map (·.instanceId)

/-- The selector a well-formed field (at most one `=`) parses to. -/
def parseFieldOk (t : String) : Tag :=
  match goSplit t '=' with
  | [k, v] => ⟨k, "tag:" ++ k, v⟩
  | _ => ⟨t, "tag-key", t⟩

/-- The keys of the `targetGroups` map. -/
def keysOfTG (m : List (String × TargetGroup)) : List String :=
  m.map (·.1)

/-- `enum` is a possible iteration order of a Go map whose key set is
that of the (duplicate-free) list `c`. -/
def enumOK (enum c : List String) : Prop :=
  enum.Nodup ∧ ∀ k, k ∈ enum ↔ k ∈ c

/-! ### Order properties of the Go string comparison -/

theorem charListLe_cons_lt {a b : Char} (as bs : List Char) (h : a.toNat < b.toNat) :
    charListLe (a :: as) (b :: bs) = true := by
  simp [charListLe, h]

theorem charListLe_cons_gt {a b : Char} (as bs : List Char) (h : b.toNat < a.toNat) :
    charListLe (a :: as) (b :: bs) = false := by
  simp [charListLe, h, Nat.lt_asymm h]

theorem charListLe_cons_same {a b : Char} (as bs : List Char) (h : a.toNat = b.toNat) :
    charListLe (a :: as) (b :: bs) = charListLe as bs := by
  simp [charListLe, h]

theorem charListLe_refl : ∀ as : List Char, charListLe as as = true
  | [] => rfl
  | a :: as => by rw [charListLe_cons_same as as rfl]; exact charListLe_refl as

theorem charListLe_total : ∀ as bs : List Char,
    charListLe as bs = true ∨ charListLe bs as = true
  | [], _ => Or.inl rfl
  | _ :: _, [] => Or.inr rfl
  | a :: as, b :: bs => by
    rcases Nat.lt_trichotomy a.toNat b.toNat with h | h | h
    · exact Or.inl (charListLe_cons_lt as bs h)
    · rw [charListLe_cons_same as bs h, charListLe_cons_same bs as h.symm]
      exact charListLe_total as bs
    · exact Or.inr (charListLe_cons_lt bs as h)

theorem charListLe_antisymm : ∀ as bs : List Char,
    charListLe as bs = true → charListLe bs as = true → as = bs
  | [], [] => fun _ _ => rfl
  | [], _ :: _ => fun _ h => by simp [charListLe] at h
  | _ :: _, [] => fun h _ => by simp [charListLe] at h
  | a :: as, b :: bs => fun h1 h2 => by
    rcases Nat.lt_trichotomy a.toNat b.toNat with h | h | h
    · rw [charListLe_cons_gt bs as h] at h2; exact absurd h2 (by simp)
    · have hab : a = b := Char.eq_of_val_eq (UInt32.ext h)
      rw [charListLe_cons_same as bs h] at h1
      rw [charListLe_cons_same bs as h.symm] at h2
      rw [hab, charListLe_antisymm as bs h1 h2]
    · rw [charListLe_cons_gt as bs h] at h1; exact absurd h1 (by simp)

theorem charListLe_trans : ∀ as bs cs : List Char,
    charListLe as bs = true → charListLe bs cs = true → charListLe as cs = true
  | [], _, _ => fun _ _ => rfl
  | _ :: _, [], _ => fun h _ => by simp [charListLe] at h
  | _ :: _, _ :: _, [] => fun _ h => by simp [charListLe] at h
  | a :: as, b :: bs, c :: cs => fun h1 h2 => by
    rcases Nat.lt_trichotomy a.toNat b.toNat with hab | hab | hab
    · rcases Nat.lt_trichotomy b.toNat c.toNat with hbc | hbc | hbc
      · exact charListLe_cons_lt as cs (Nat.lt_trans hab hbc)
      · exact charListLe_cons_lt as cs (hbc ▸ hab)
      · rw [charListLe_cons_gt bs cs hbc] at h2; exact absurd h2 (by simp)
    · rcases Nat.lt_trichotomy b.toNat c.toNat with hbc | hbc | hbc
      · exact charListLe_cons_lt as cs (hab ▸ hbc)
      · rw [charListLe_cons_same as bs hab] at h1
        rw [charListLe_cons_same bs cs hbc] at h2
        rw [charListLe_cons_same as cs (hab.trans hbc)]
        exact charListLe_trans as bs cs h1 h2
      · rw [charListLe_cons_gt bs cs hbc] at h2; exact absurd h2 (by simp)
    · rw [charListLe_cons_gt as bs hab] at h1; exact absurd h1 (by simp)

instance : IsTotal String (fun a b => strLe a b = true) :=
  ⟨fun a b => charListLe_total a.data b.data⟩

instance : IsTrans String (fun a b => strLe a b = true) :=
  ⟨fun a b c => charListLe_trans a.data b.data c.data⟩

instance : IsAntisymm String (fun a b => strLe a b = true) :=
  ⟨fun a b h1 h2 => by
    have h := charListLe_antisymm a.data b.data h1 h2
    cases a; cases b; exact congrArg String.mk h⟩

instance : IsRefl String (fun a b => strLe a b = true) :=
  ⟨fun a => charListLe_refl a.data⟩

theorem sortStrings_perm (l : List String) : List.Perm (sortStrings l) l :=
  List.perm_insertionSort _ l

theorem sortStrings_sorted (l : List String) :
    List.Sorted (fun a b => strLe a b = true) (sortStrings l) :=
  List.sorted_insertionSort _ l

theorem sortStrings_eq_of_perm {l₁ l₂ : List String} (h : List.Perm l₁ l₂) :
    sortStrings l₁ = sortStrings l₂ :=
  List.eq_of_perm_of_sorted
    (((sortStrings_perm l₁).trans h).trans (sortStrings_perm l₂).symm)
    (sortStrings_sorted l₁) (sortStrings_sorted l₂)

theorem sortStrings_congr {l₁ l₂ : List String} (h₁ : l₁.Nodup) (h₂ : l₂.Nodup)
    (h : ∀ k, k ∈ l₁ ↔ k ∈ l₂) : sortStrings l₁ = sortStrings l₂ :=
  sortStrings_eq_of_perm ((List.perm_ext_iff_of_nodup h₁ h₂).mpr h)

/-! ### Health Filter (C4) -/

theorem filterHealthy_foldl (l : List InstanceState) (acc : List String) :
    l.foldl
        (fun healthyInstances i =>
          if i.state = "InService" then healthyInstances ++ [i.instanceId]
          else healthyInstances) acc =
      acc ++ healthFilterSpec l := by
  induction l generalizing acc with
  | nil => simp [healthFilterSpec]
  | cons i rest ih =>
    by_cases h : i.state = "InService" <;>
      simp [healthFilterSpec, List.filter_cons, h, ih, List.append_assoc]

/-- C4: the health filter returns exactly the identifiers whose health
status string equals the exact string `"InService"` (case-sensitive, no
normalization), preserving the input order; no instance is excluded for
any other reason. -/
theorem C4_health_filter (output : List InstanceState) :
    filterHealthyInstances output = healthFilterSpec output := by
  simpa [filterHealthyInstances] using filterHealthy_foldl output []

/-! ### Key Discovery Fallback (C5) -/

theorem dedup_foldl_nodup (l : List String) (acc : List String) (h : acc.Nodup) :
    (l.foldl (fun acc k => if k ∈ acc then acc else acc ++ [k]) acc).Nodup := by
  induction l generalizing acc with
  | nil => simpa
  | cons k rest ih =>
    by_cases hk : k ∈ acc
    · simpa [hk] using ih acc h
    · simp only [List.foldl_cons, if_neg hk]
      refine ih _ ?_
      rw [← List.concat_eq_append]
      exact h.concat hk

theorem dedup_foldl_mem (l : List String) (acc : List String) (k : String) :
    k ∈ l.foldl (fun acc k => if k ∈ acc then acc else acc ++ [k]) acc ↔
      k ∈ acc ∨ k ∈ l := by
  induction l generalizing acc with
  | nil => simp
  | cons x rest ih =>
    by_cases hx : x ∈ acc
    · rw [List.foldl_cons, if_pos hx, ih]
      constructor
      · rintro (h | h)
        · exact Or.inl h
        · exact Or.inr (List.mem_cons_of_mem _ h)
      · rintro (h | h)
        · exact Or.inl h
        · rcases List.mem_cons.mp h with rfl | h
          · exact Or.inl hx
          · exact Or.inr h
    · rw [List.foldl_cons, if_neg hx, ih]
      simp only [List.mem_append, List.mem_singleton, List.mem_cons]
      tauto

theorem dedupKeys_nodup (l : List String) : (dedupKeys l).Nodup :=
  dedup_foldl_nodup l [] List.nodup_nil

theorem mem_dedupKeys (l : List String) (k : String) : k ∈ dedupKeys l ↔ k ∈ l := by
  simpa [dedupKeys] using dedup_foldl_mem l [] k

theorem mem_collectTagKeys (instances : List EC2Instance) (k : String) :
    k ∈ collectTagKeys instances ↔ ∃ i ∈ instances, k ∈ instanceTagKeys i := by
  rw [collectTagKeys, mem_dedupKeys]
  simp [List.mem_flatten]

theorem mem_allTagKeys (instances : List EC2Instance) (k : String) :
    k ∈ allTagKeys instances ↔ ∃ i ∈ instances, k ∈ instanceTagKeys i := by
  rw [allTagKeys, allTagKeysEnum, ← mem_collectTagKeys]
  exact (sortStrings_perm _).mem_iff

/-- C5: the Key Discovery Fallback returns the set union of every tag key
present on any instance sorted lexicographically ascending (part 1:
sorted, duplicate-free, membership is exactly "some instance has the
key"); it is invoked only when the parsed selector sequence is empty
(part 2: with any selectors present, the grouping keys are the selector
keys and the fallback result is not consulted); identical input tag-key
sets always yield identical output ordering (part 3). -/
theorem C5_key_discovery :
    (∀ instances : List EC2Instance,
      List.Sorted (fun a b => strLe a b = true) (allTagKeys instances) ∧
      (allTagKeys instances).Nodup ∧
      (∀ k, k ∈ allTagKeys instances ↔ ∃ i ∈ instances, k ∈ instanceTagKeys i)) ∧
    (∀ (tags : Tags) (eTag : List String),
      Tags.Keys tags ≠ [] → runKeys tags eTag = Tags.Keys tags) ∧
    (∀ insts1 insts2 : List EC2Instance,
      (∀ k, (∃ i ∈ insts1, k ∈ instanceTagKeys i) ↔ ∃ i ∈ insts2, k ∈ instanceTagKeys i) →
      allTagKeys insts1 = allTagKeys insts2) := by
  refine ⟨fun instances => ⟨sortStrings_sorted _, ?_, mem_allTagKeys instances⟩,
    fun tags eTag h => ?_, fun insts1 insts2 h => ?_⟩
  · exact ((sortStrings_perm _).nodup_iff).mpr (dedupKeys_nodup _)
  · rw [runKeys, if_neg]
    simpa using fun hlen => h (List.length_eq_zero.mp hlen)
  · refine sortStrings_congr (dedupKeys_nodup _) (dedupKeys_nodup _) fun k => ?_
    rw [mem_collectTagKeys, mem_collectTagKeys]
    exact h k

theorem C5_witness :
    Tags.Keys [⟨"Name", "tag-key", "Name"⟩] ≠ [] ∧
    runKeys [⟨"Name", "tag-key", "Name"⟩] ["Zed"] = Tags.Keys [⟨"Name", "tag-key", "Name"⟩] ∧
    allTagKeys [⟨16, none, [("Team", "x")]⟩, ⟨16, none, [("Region", "y")]⟩] =
      allTagKeys [⟨16, none, [("Region", "y"), ("Team", "x")]⟩] ∧
    allTagKeys [⟨16, none, [("Team", "x")]⟩, ⟨16, none, [("Region", "y")]⟩] =
      ["Region", "Team"] := by
  refine ⟨by decide, C5_key_discovery.2.1 _ _ (by decide),
    C5_key_discovery.2.2 _ _ fun k => ?_, by decide⟩
  rw [← mem_collectTagKeys, ← mem_collectTagKeys]
  have h1 : collectTagKeys [⟨16, none, [("Team", "x")]⟩, ⟨16, none, [("Region", "y")]⟩] =
      ["Team", "Region"] := by decide
  have h2 : collectTagKeys [⟨16, none, [("Region", "y"), ("Team", "x")]⟩] =
      ["Region", "Team"] := by decide
  rw [h1, h2]
  simp only [List.mem_cons, List.not_mem_nil, or_false]
  tauto

/-! ### Tag Filter Spec parser (C9) -/

theorem splitOnChar_ne_nil (sep : Char) : ∀ l : List Char, splitOnChar sep l ≠ []
  | [] => by simp [splitOnChar]
  | c :: rest => by
    rw [splitOnChar]
    by_cases h : c = sep
    · simp [h]
    · rw [if_neg h]
      rcases hr : splitOnChar sep rest with _ | ⟨f, fs⟩ <;> simp

theorem goSplit_ne_nil (s : String) (sep : Char) : goSplit s sep ≠ [] := by
  rw [goSplit]
  intro h
  exact splitOnChar_ne_nil sep s.data (List.map_eq_nil_iff.mp h)

theorem parseField_ok (t : String) (h : (goSplit t '=').length ≤ 2) :
    parseField t = .ok (parseFieldOk t) := by
  rw [parseField, parseFieldOk]
  rcases hs : goSplit t '=' with _ | ⟨a, _ | ⟨b, _ | ⟨c, l⟩⟩⟩
  · exact absurd hs (goSplit_ne_nil t '=')
  · rfl
  · rfl
  · rw [hs] at h; simp at h

theorem parseField_error (t : String) (h : 3 ≤ (goSplit t '=').length) :
    parseField t = .error ("Unrecognized tag filter " ++ t) := by
  rw [parseField]
  rcases hs : goSplit t '=' with _ | ⟨a, _ | ⟨b, _ | ⟨c, l⟩⟩⟩ <;>
    first
      | (rw [hs] at h; simp at h)
      | rfl

theorem parseFieldsAux_ok (l : List String)
    (h : ∀ f ∈ l, (goSplit f '=').length ≤ 2) :
    parseFieldsAux l = .ok (l.map parseFieldOk) := by
  induction l with
  | nil => rfl
  | cons t rest ih =>
    rw [parseFieldsAux, parseField_ok t (h t (List.mem_cons_self t rest)),
      ih fun f hf => h f (List.mem_cons_of_mem t hf)]
    rfl

theorem parseFieldsAux_error (l : List String) (f : String) (hf : f ∈ l)
    (h : 3 ≤ (goSplit f '=').length) : ∃ e, parseFieldsAux l = .error e := by
  induction l with
  | nil => cases hf
  | cons t rest ih =>
    by_cases ht : 3 ≤ (goSplit t '=').length
    · exact ⟨_, by rw [parseFieldsAux, parseField_error t ht]⟩
    · have ht2 : (goSplit t '=').length ≤ 2 := by omega
      rcases List.mem_cons.mp hf with rfl | hf
      · exact absurd h ht
      · rcases ih hf with ⟨e, he⟩
        exact ⟨e, by rw [parseFieldsAux, parseField_ok t ht2, he]⟩

/-- C9 (amended): a field with more than one `=` makes parsing fatal with
a descriptive message and no partial result, and the fatal outcome is
decided before the run ever consumes network data; a field with zero or
one `=` parses to one selector, in field order — except that the empty
input (a single empty field) parses to the empty selector sequence rather
than to one selector. -/
theorem C9_parse_tags :
    (∀ tagsRaw f : String, f ∈ goSplit tagsRaw ',' → 3 ≤ (goSplit f '=').length →
      ∃ e, parseTags tagsRaw = .error e) ∧
    (∀ tagsRaw : String, goSplit tagsRaw ',' ≠ [""] →
      (∀ f ∈ goSplit tagsRaw ',', (goSplit f '=').length ≤ 2) →
      parseTags tagsRaw = .ok ((goSplit tagsRaw ',').map parseFieldOk)) ∧
    parseTags "" = .ok [] ∧
    (∀ (tagsRaw e : String) (port : Int) (net : List EC2Instance)
      (eTag fGrp : List String),
      parseTags tagsRaw = .error e → mainModel tagsRaw port net eTag fGrp = .error e) := by
  refine ⟨fun tagsRaw f hf h => ?_, fun tagsRaw hne h => ?_, by decide,
    fun tagsRaw e port net eTag fGrp hp => ?_⟩
  · rw [parseTags]
    by_cases hone : goSplit tagsRaw ',' = [""]
    · rw [hone] at hf
      rcases List.mem_singleton.mp hf with rfl
      have : goSplit "" '=' = [""] := by decide
      rw [this] at h
      simp at h
    · rw [if_neg hone]
      exact parseFieldsAux_error _ f hf h
  · rw [parseTags, if_neg hne]
    exact parseFieldsAux_ok _ h
  · rw [mainModel, hp]

theorem C9_witness :
    ("Environment=Production=x" ∈ goSplit "Name,Environment=Production=x" ',' ∧
      3 ≤ (goSplit "Environment=Production=x" '=').length ∧
      ∃ e, parseTags "Name,Environment=Production=x" = .error e) ∧
    (goSplit "Application,Environment=Production" ',' ≠ [""] ∧
      parseTags "Application,Environment=Production" =
        .ok [⟨"Application", "tag-key", "Application"⟩,
          ⟨"Environment", "tag:Environment", "Production"⟩]) ∧
    mainModel "a=b=c" 80 [] [] [] = .error "Unrecognized tag filter a=b=c" := by
  refine ⟨⟨by decide, by decide,
      C9_parse_tags.1 "Name,Environment=Production=x" "Environment=Production=x"
        (by decide) (by decide)⟩,
    ⟨by decide, ?_⟩, C9_parse_tags.2.2.2 _ _ _ _ _ _ (by decide)⟩
  have := C9_parse_tags.2.1 "Application,Environment=Production" (by decide) (by decide)
  rw [this]
  decide

/-- C9 counterexample to the claim as stated: the empty input is a single
field containing zero `=`, yet parsing yields zero selectors, not one
selector for that field. -/
theorem C9_counterexample :
    (goSplit "" ',').length = 1 ∧ (goSplit "" '=').length = 1 ∧
    parseTags "" = .ok [] ∧ parseTags "" ≠ .ok [⟨"", "tag-key", ""⟩] := by
  decide

/-! ### Grouping Engine: map-operation lemmas -/

theorem lookupTG_cons (e : String × TargetGroup) (m : List (String × TargetGroup))
    (k : String) :
    lookupTG (e :: m) k = if e.1 = k then some e.2 else lookupTG m k := by
  by_cases h : e.1 = k <;> simp [lookupTG, List.find?_cons, h]

theorem lookupTG_insertTG (m : List (String × TargetGroup)) (k k' : String)
    (g : TargetGroup) :
    lookupTG (insertTG m k g) k' =
      match lookupTG m k' with
      | some g' => some g'
      | none => if k' = k then some g else none := by
  induction m with
  | nil =>
    rw [insertTG, List.nil_append, lookupTG_cons]
    show (if k = k' then some g else none) = if k' = k then some g else none
    by_cases h : k = k'
    · rw [if_pos h, if_pos h.symm]
    · rw [if_neg h, if_neg fun hh => h hh.symm]
  | cons e m ih =>
    rw [insertTG, List.cons_append, lookupTG_cons, ← insertTG, lookupTG_cons]
    by_cases h : e.1 = k' <;> simp [h, ih]

theorem lookupTG_appendTarget (m : List (String × TargetGroup)) (k k' t : String) :
    lookupTG (appendTarget m k t) k' =
      (lookupTG m k').map
        (fun g => if k' = k then ⟨g.Targets ++ [t], g.Labels⟩ else g) := by
  induction m with
  | nil => rfl
  | cons e m ih =>
    rw [appendTarget, List.map_cons, ← appendTarget]
    by_cases hek : e.1 = k
    · by_cases hek' : e.1 = k'
      · rw [if_pos (by simpa using hek), lookupTG_cons, lookupTG_cons,
          if_pos hek', if_pos hek']
        have hkk : k' = k := hek'.symm.trans hek
        simp [hkk]
      · rw [if_pos (by simpa using hek), lookupTG_cons, lookupTG_cons,
          if_neg hek', if_neg hek', ih]
    · by_cases hek' : e.1 = k'
      · rw [if_neg (by simpa using hek), lookupTG_cons, lookupTG_cons,
          if_pos hek', if_pos hek']
        have : ¬ k' = k := fun h => hek (hek'.trans h)
        simp [this]
      · rw [if_neg (by simpa using hek), lookupTG_cons, lookupTG_cons,
          if_neg hek', if_neg hek', ih]

theorem lookupTG_ensureTG (m : List (String × TargetGroup)) (k k' : String)
    (lbls : List (String × String)) :
    lookupTG (ensureTG m k lbls) k' =
      if k' = k then some ((lookupTG m k).getD ⟨[], lbls⟩) else lookupTG m k' := by
  rw [ensureTG]
  cases hm : lookupTG m k with
  | some g =>
    by_cases h : k' = k
    · rw [if_pos h, h, hm]; rfl
    · rw [if_neg h]
  | none =>
    rw [lookupTG_insertTG]
    cases hm' : lookupTG m k' with
    | some g' =>
      have : ¬ k' = k := fun h => by rw [h, hm] at hm'; cases hm'
      simp [this, hm']
    | none => by_cases h : k' = k <;> simp [h, hm, hm']

theorem keysOfTG_insertTG (m : List (String × TargetGroup)) (k : String)
    (g : TargetGroup) : keysOfTG (insertTG m k g) = keysOfTG m ++ [k] := by
  simp [keysOfTG, insertTG]

theorem keysOfTG_appendTarget (m : List (String × TargetGroup)) (k t : String) :
    keysOfTG (appendTarget m k t) = keysOfTG m := by
  induction m with
  | nil => rfl
  | cons e m ih =>
    rw [appendTarget, List.map_cons, ← appendTarget, keysOfTG, List.map_cons,
      keysOfTG, List.map_cons, ← keysOfTG, ← keysOfTG, ih]
    by_cases h : e.1 = k <;> simp [h]

theorem lookupTG_eq_none_iff (m : List (String × TargetGroup)) (k : String) :
    lookupTG m k = none ↔ k ∉ keysOfTG m := by
  simp only [lookupTG, Option.map_eq_none', List.find?_eq_none, keysOfTG,
    List.mem_map, beq_iff_eq]
  constructor
  · rintro h ⟨e, he, rfl⟩
    exact h e he rfl
  · rintro h e he rfl
    exact h ⟨e, he, rfl⟩

theorem keysOfTG_ensureTG_nodup (m : List (String × TargetGroup)) (k : String)
    (lbls : List (String × String)) (h : (keysOfTG m).Nodup) :
    (keysOfTG (ensureTG m k lbls)).Nodup := by
  rw [ensureTG]
  cases hm : lookupTG m k with
  | some g => exact h
  | none =>
    rw [keysOfTG_insertTG, ← List.concat_eq_append]
    exact h.concat ((lookupTG_eq_none_iff m k).mp hm)

/-! ### Grouping Engine: step lemmas for the derived notions -/

theorem contributes_true_cons {i : EC2Instance} (tagKeys : List String) (k : String)
    (rest : List EC2Instance) (h : contributes tagKeys k i = true) (ip : String)
    (hip : i.privateIpAddress = some ip) (port : Int) :
    targetsFor tagKeys port (i :: rest) k =
      (ip ++ ":" ++ toString port) :: targetsFor tagKeys port rest k ∧
    firstCreator tagKeys (i :: rest) k = some i := by
  constructor
  · rw [targetsFor, List.filter_cons, if_pos (by simpa using h), List.filterMap_cons,
      ← targetsFor]
    simp [mkTarget, hip]
  · rw [firstCreator, List.find?_cons, h]

theorem contributes_false_cons {i : EC2Instance} (tagKeys : List String) (k : String)
    (rest : List EC2Instance) (h : contributes tagKeys k i = false) (port : Int) :
    targetsFor tagKeys port (i :: rest) k = targetsFor tagKeys port rest k ∧
    firstCreator tagKeys (i :: rest) k = firstCreator tagKeys rest k := by
  constructor
  · rw [targetsFor, List.filter_cons, if_neg (by simp [h]), ← targetsFor]
  · rw [firstCreator, List.find?_cons, h]
    rfl

theorem contributes_of_not_running {i : EC2Instance} (tagKeys : List String)
    (k : String) (h : ¬ i.stateCode = 16) : contributes tagKeys k i = false := by
  simp [contributes, isRunning, h]

/-! ### Grouping Engine: the characterization of `groupByTags` -/

theorem groupByTagsAux_char (tagKeys : List String) (port : Int) :
    ∀ (insts : List EC2Instance) (m0 m : List (String × TargetGroup)),
      groupByTagsAux tagKeys port insts m0 = .ok m →
      ∀ k, lookupTG m k =
        match lookupTG m0 k with
        | some g => some ⟨g.Targets ++ targetsFor tagKeys port insts k, g.Labels⟩
        | none =>
          match firstCreator tagKeys insts k with
          | some i => some ⟨targetsFor tagKeys port insts k, labelsFor tagKeys i⟩
          | none => none
  | [], m0, m, h, k => by
    have hm : m0 = m := by
      rw [groupByTagsAux] at h
      exact (Except.ok.injEq _ _).mp h
    subst hm
    rw [targetsFor, firstCreator]
    cases hl : lookupTG m0 k <;> simp
  | i :: rest, m0, m, h, k => by
    rw [groupByTagsAux] at h
    by_cases hrun : i.stateCode ≠ 16
    · rw [if_pos hrun] at h
      have hc := contributes_false_cons tagKeys k rest
        (contributes_of_not_running tagKeys k hrun) port
      rw [hc.1, hc.2]
      exact groupByTagsAux_char tagKeys port rest m0 m h k
    · rw [if_neg hrun] at h
      have hrun' : i.stateCode = 16 := not_not.mp hrun
      cases hip : i.privateIpAddress with
      | none => rw [hip] at h; cases h
      | some ip =>
        rw [hip] at h
        have ih := groupByTagsAux_char tagKeys port rest _ m h
        by_cases hk : k = groupKey tagKeys i
        · have hcon : contributes tagKeys k i = true := by
            simp [contributes, isRunning, hrun', hk]
          have hstep := contributes_true_cons tagKeys k rest hcon ip hip port
          rw [hstep.1, hstep.2, ih k, lookupTG_appendTarget, lookupTG_ensureTG,
            if_pos hk, hk]
          cases hm0 : lookupTG m0 (groupKey tagKeys i) with
          | some g => simp [hk]
          | none => simp [hk]
        · have hcon : contributes tagKeys k i = false := by
            simp [contributes, isRunning, hrun']
            exact fun h' => absurd h'.symm hk
          have hstep := contributes_false_cons tagKeys k rest hcon port
          rw [hstep.1, hstep.2, ih k, lookupTG_appendTarget, lookupTG_ensureTG,
            if_neg hk]
          cases hm0 : lookupTG m0 k with
          | some g => simp [hk]
          | none => simp [hk]

/-- The plain characterization of a successful `groupByTags`: each key
holds a group exactly when some eligible instance has that signature; its
targets are all contributions in first-seen order, its labels those of
the creating instance. -/
theorem groupByTags_char (insts : List EC2Instance) (tagKeys : List String)
    (port : Int) (m : List (String × TargetGroup))
    (hok : groupByTags insts tagKeys port = .ok m) (k : String) :
    lookupTG m k =
      match firstCreator tagKeys insts k with
      | some i => some ⟨targetsFor tagKeys port insts k, labelsFor tagKeys i⟩
      | none => none :=
  groupByTagsAux_char tagKeys port insts [] m hok k

theorem groupByTags_ok_lookup (insts : List EC2Instance) (tagKeys : List String)
    (port : Int) (m : List (String × TargetGroup)) (k : String) (g : TargetGroup)
    (hok : groupByTags insts tagKeys port = .ok m) (hg : lookupTG m k = some g) :
    ∃ i, firstCreator tagKeys insts k = some i ∧ contributes tagKeys k i = true ∧
      i ∈ insts ∧ g = ⟨targetsFor tagKeys port insts k, labelsFor tagKeys i⟩ := by
  rw [groupByTags_char insts tagKeys port m hok k] at hg
  cases hfc : firstCreator tagKeys insts k with
  | none => rw [hfc] at hg; cases hg
  | some i =>
    rw [hfc] at hg
    refine ⟨i, rfl, List.find?_some hfc, List.mem_of_find?_eq_some hfc, ?_⟩
    exact (Option.some.injEq _ _).mp hg.symm

theorem groupByTagsAux_keys_nodup (tagKeys : List String) (port : Int) :
    ∀ (insts : List EC2Instance) (m0 m : List (String × TargetGroup)),
      (keysOfTG m0).Nodup → groupByTagsAux tagKeys port insts m0 = .ok m →
      (keysOfTG m).Nodup
  | [], m0, m, h0, h => by
    rw [groupByTagsAux] at h
    cases h
    exact h0
  | i :: rest, m0, m, h0, h => by
    rw [groupByTagsAux] at h
    by_cases hrun : i.stateCode ≠ 16
    · rw [if_pos hrun] at h
      exact groupByTagsAux_keys_nodup tagKeys port rest m0 m h0 h
    · rw [if_neg hrun] at h
      cases hip : i.privateIpAddress with
      | none => rw [hip] at h; cases h
      | some ip =>
        rw [hip] at h
        refine groupByTagsAux_keys_nodup tagKeys port rest _ m ?_ h
        rw [keysOfTG_appendTarget]
        exact keysOfTG_ensureTG_nodup _ _ _ h0

theorem groupByTags_keys_nodup (insts : List EC2Instance) (tagKeys : List String)
    (port : Int) (m : List (String × TargetGroup))
    (hok : groupByTags insts tagKeys port = .ok m) : (keysOfTG m).Nodup :=
  groupByTagsAux_keys_nodup tagKeys port insts [] m List.nodup_nil hok

theorem groupByTagsAux_ok_addr (tagKeys : List String) (port : Int) :
    ∀ (insts : List EC2Instance) (m0 m : List (String × TargetGroup)),
      groupByTagsAux tagKeys port insts m0 = .ok m →
      ∀ i ∈ insts, i.stateCode = 16 → ∃ ip, i.privateIpAddress = some ip
  | [], _, _, _, i, hi, _ => absurd hi (List.not_mem_nil i)
  | j :: rest, m0, m, h, i, hi, hrun16 => by
    rw [groupByTagsAux] at h
    by_cases hj : j.stateCode ≠ 16
    · rw [if_pos hj] at h
      rcases List.mem_cons.mp hi with rfl | hi'
      · exact absurd hrun16 hj
      · exact groupByTagsAux_ok_addr tagKeys port rest m0 m h i hi' hrun16
    · rw [if_neg hj] at h
      cases hip : j.privateIpAddress with
      | none => rw [hip] at h; cases h
      | some ip =>
        rw [hip] at h
        rcases List.mem_cons.mp hi with rfl | hi'
        · exact ⟨ip, hip⟩
        · exact groupByTagsAux_ok_addr tagKeys port rest _ m h i hi' hrun16

theorem groupByTags_error_of_missing_addr (insts : List EC2Instance)
    (tagKeys : List String) (port : Int) (i : EC2Instance) (hi : i ∈ insts)
    (hrun : i.stateCode = 16) (hip : i.privateIpAddress = none) :
    ∃ e, groupByTags insts tagKeys port = .error e := by
  cases hres : groupByTags insts tagKeys port with
  | error e => exact ⟨e, rfl⟩
  | ok m =>
    rcases groupByTagsAux_ok_addr tagKeys port insts [] m hres i hi hrun with ⟨ip, h⟩
    rw [hip] at h
    cases h

theorem groupByTagsAux_skip (tagKeys : List String) (port : Int) (i : EC2Instance)
    (hrun : i.stateCode ≠ 16) :
    ∀ (pre post : List EC2Instance) (m0 : List (String × TargetGroup)),
      groupByTagsAux tagKeys port (pre ++ i :: post) m0 =
        groupByTagsAux tagKeys port (pre ++ post) m0
  | [], post, m0 => by
    rw [List.nil_append, List.nil_append, groupByTagsAux, if_pos hrun]
  | j :: pre, post, m0 => by
    rw [List.cons_append, List.cons_append, groupByTagsAux, groupByTagsAux]
    by_cases hj : j.stateCode ≠ 16
    · rw [if_pos hj, if_pos hj]
      exact groupByTagsAux_skip tagKeys port i hrun pre post m0
    · rw [if_neg hj, if_neg hj]
      cases hip : j.privateIpAddress with
      | none => rfl
      | some ip =>
        simp only [hip]
        exact groupByTagsAux_skip tagKeys port i hrun pre post _

/-! ### Labels recover the grouping signature -/

theorem lookupLabel_cons (e : String × String) (m : List (String × String))
    (k : String) :
    lookupLabel (e :: m) k = if e.1 = k then some e.2 else lookupLabel m k := by
  by_cases h : e.1 = k <;> simp [lookupLabel, List.find?_cons, h]

theorem lookupLabel_mapInsert (m : List (String × String)) (k v k' : String) :
    lookupLabel (mapInsert m k v) k' = if k' = k then some v else lookupLabel m k' := by
  induction m with
  | nil =>
    rw [mapInsert, lookupLabel_cons]
    by_cases h : k = k'
    · rw [if_pos h, if_pos h.symm]
    · rw [if_neg h, if_neg fun hh => h hh.symm]
  | cons e m ih =>
    rcases e with ⟨k'', v''⟩
    rw [mapInsert]
    by_cases h1 : k = k''
    · rw [if_pos h1, lookupLabel_cons, lookupLabel_cons]
      by_cases h : k' = k
      · rw [if_pos (show (k, v).1 = k' from h.symm), if_pos h]
      · rw [if_neg (show ¬ (k, v).1 = k' from fun hh => h hh.symm), if_neg h,
          if_neg (show ¬ (k'', v'').1 = k' from fun hh => h (hh.symm.trans h1.symm))]
    · rw [if_neg h1]
      by_cases h2 : strLe k k'' = true
      · rw [if_pos h2, lookupLabel_cons, lookupLabel_cons]
        by_cases h : k' = k
        · rw [if_pos (show (k, v).1 = k' from h.symm), if_pos h]
        · rw [if_neg (show ¬ (k, v).1 = k' from fun hh => h hh.symm), if_neg h]
      · rw [if_neg h2, lookupLabel_cons, lookupLabel_cons, ih]
        by_cases h3 : k'' = k'
        · rw [if_pos (show (k'', v'').1 = k' from h3),
            if_neg (show ¬ k' = k from fun hh => h1 (h3.trans hh).symm),
            if_pos (show (k'', v'').1 = k' from h3)]
        · rw [if_neg (show ¬ (k'', v'').1 = k' from h3),
            if_neg (show ¬ (k'', v'').1 = k' from h3)]

theorem labelsFor_foldl_lookup (tagKeys : List String) (i : EC2Instance) (k : String) :
    ∀ acc : List (String × String),
      lookupLabel
          (tagKeys.foldl
            (fun labels tagKey =>
              let tagVal := getTag i tagKey
              if tagVal ≠ "" then mapInsert labels tagKey tagVal else labels) acc) k =
        if k ∈ tagKeys ∧ getTag i k ≠ "" then some (getTag i k)
        else lookupLabel acc k := by
  induction tagKeys with
  | nil => simp
  | cons t rest ih =>
    intro acc
    rw [List.foldl_cons, ih]
    by_cases hmem : k ∈ rest ∧ getTag i k ≠ ""
    · rw [if_pos hmem, if_pos (show k ∈ t :: rest ∧ getTag i k ≠ "" from
        ⟨List.mem_cons_of_mem t hmem.1, hmem.2⟩)]
    · rw [if_neg hmem]
      by_cases hkt : k = t
      · subst hkt
        by_cases hv : getTag i k ≠ ""
        · simp [lookupLabel_mapInsert, hv]
        · simp only [if_neg hv]
          rw [if_neg (show ¬ (k ∈ k :: rest ∧ getTag i k ≠ "") from fun hc => hv hc.2)]
      · by_cases hv : getTag i t ≠ ""
        · simp only [if_pos hv, lookupLabel_mapInsert,
            if_neg (show ¬ k = t from hkt)]
          rw [if_neg (show ¬ (k ∈ t :: rest ∧ getTag i k ≠ "") from
            fun hc => hmem ⟨(List.mem_cons.mp hc.1).resolve_left hkt, hc.2⟩)]
        · simp only [if_neg hv]
          rw [if_neg (show ¬ (k ∈ t :: rest ∧ getTag i k ≠ "") from
            fun hc => hmem ⟨(List.mem_cons.mp hc.1).resolve_left hkt, hc.2⟩)]

theorem labelsFor_lookup (tagKeys : List String) (i : EC2Instance) (k : String) :
    lookupLabel (labelsFor tagKeys i) k =
      if k ∈ tagKeys ∧ getTag i k ≠ "" then some (getTag i k) else none := by
  rw [labelsFor, labelsFor_foldl_lookup]
  rfl

theorem foldl_key_congr (i1 i2 : EC2Instance) :
    ∀ (l : List String) (acc : String),
      (∀ k ∈ l, getTag i1 k = getTag i2 k) →
      l.foldl (fun key tagKey => key ++ "|" ++ tagKey ++ "=" ++ getTag i1 tagKey) acc =
        l.foldl (fun key tagKey => key ++ "|" ++ tagKey ++ "=" ++ getTag i2 tagKey) acc
  | [], _, _ => rfl
  | t :: rest, acc, h => by
    rw [List.foldl_cons, List.foldl_cons, h t (List.mem_cons_self t rest)]
    exact foldl_key_congr i1 i2 rest _ fun k hk => h k (List.mem_cons_of_mem t hk)

theorem foldl_sig_congr (i : EC2Instance) (lbls : List (String × String)) :
    ∀ (l : List String) (acc : String),
      (∀ k ∈ l, getTag i k = (lookupLabel lbls k).getD "") →
      l.foldl (fun key tagKey => key ++ "|" ++ tagKey ++ "=" ++ getTag i tagKey) acc =
        l.foldl (fun acc2 k => acc2 ++ "|" ++ k ++ "=" ++ (lookupLabel lbls k).getD "") acc
  | [], _, _ => rfl
  | t :: rest, acc, h => by
    rw [List.foldl_cons, List.foldl_cons, h t (List.mem_cons_self t rest)]
    exact foldl_sig_congr i lbls rest _ fun k hk => h k (List.mem_cons_of_mem t hk)

theorem groupKey_eq_sigFromLabels (tagKeys : List String) (i : EC2Instance) :
    groupKey tagKeys i = sigFromLabels tagKeys (labelsFor tagKeys i) := by
  rw [groupKey, sigFromLabels]
  refine foldl_sig_congr i (labelsFor tagKeys i) tagKeys "" fun k hk => ?_
  rw [labelsFor_lookup]
  by_cases hv : getTag i k ≠ ""
  · rw [if_pos ⟨hk, hv⟩]; rfl
  · rw [if_neg fun hc => hv hc.2, not_not.mp hv]; rfl

theorem labels_determine_key (tagKeys : List String) (i1 i2 : EC2Instance)
    (h : labelsFor tagKeys i1 = labelsFor tagKeys i2) :
    groupKey tagKeys i1 = groupKey tagKeys i2 := by
  rw [groupKey_eq_sigFromLabels, groupKey_eq_sigFromLabels, h]

theorem mem_targetsFor (tagKeys : List String) (port : Int) (insts : List EC2Instance)
    (k : String) (i : EC2Instance) (t : String) (hi : i ∈ insts)
    (hcon : contributes tagKeys k i = true) (hmk : mkTarget port i = some t) :
    t ∈ targetsFor tagKeys port insts k :=
  List.mem_filterMap.mpr ⟨i, List.mem_filter.mpr ⟨hi, hcon⟩, hmk⟩

/-! ### The claims on the Grouping Engine -/

/-- C1 (amended): an instance whose lifecycle state is not `Running` is
silently excluded — deleting it from the input changes nothing about the
grouping engine's outcome, so it contributes no group, no target entry
and no error; but a `Running` instance lacking a private address is NOT
silently excluded: it makes the whole grouping engine fail (the nil
private-address pointer is dereference-panicked), rather than complete
normally. -/
theorem C1_exclusion :
    (∀ (tagKeys : List String) (port : Int) (i : EC2Instance)
      (pre post : List EC2Instance), i.stateCode ≠ 16 →
      groupByTags (pre ++ i :: post) tagKeys port =
        groupByTags (pre ++ post) tagKeys port) ∧
    (∀ (insts : List EC2Instance) (tagKeys : List String) (port : Int)
      (i : EC2Instance), i ∈ insts → i.stateCode = 16 →
      i.privateIpAddress = none →
      ∃ e, groupByTags insts tagKeys port = .error e) := by
  constructor
  · intro tagKeys port i pre post hrun
    exact groupByTagsAux_skip tagKeys port i hrun pre post []
  · intro insts tagKeys port i hi hrun hip
    exact groupByTags_error_of_missing_addr insts tagKeys port i hi hrun hip

theorem C1_witness :
    ((⟨0, some "10.0.0.9", [("Name", "web")]⟩ : EC2Instance).stateCode ≠ 16 ∧
      groupByTags
          [⟨0, some "10.0.0.9", [("Name", "web")]⟩,
            ⟨16, some "10.0.0.1", [("Name", "web")]⟩] ["Name"] 80 =
        groupByTags [⟨16, some "10.0.0.1", [("Name", "web")]⟩] ["Name"] 80) ∧
    ((⟨16, none, []⟩ : EC2Instance) ∈ [(⟨16, none, []⟩ : EC2Instance)] ∧
      ∃ e, groupByTags [⟨16, none, []⟩] ["Name"] 80 = .error e) := by
  refine ⟨⟨by decide, ?_⟩, by decide,
    C1_exclusion.2 [⟨16, none, []⟩] ["Name"] 80 ⟨16, none, []⟩ (by decide)
      (by decide) (by decide)⟩
  exact C1_exclusion.1 ["Name"] 80 ⟨0, some "10.0.0.9", [("Name", "web")]⟩ []
    [⟨16, some "10.0.0.1", [("Name", "web")]⟩] (by decide)

/-- C1 counterexample to the claim as stated: a `Running` instance lacking
a private address does not lead to normal completion with silent
exclusion — `groupByTags` raises the nil-dereference error. -/
theorem C1_counterexample :
    (⟨16, none, []⟩ : EC2Instance).privateIpAddress = none ∧
    groupByTags [⟨16, none, []⟩] ["Name"] 80 = .error nilDerefMsg := by
  decide

/-- C2: for eligible instances (`Running`, with a private address)
processed in the same successful run, the two instances' target entries
land in one and the same Target Group exactly when their Grouping
Signatures coincide. -/
theorem C2_partition (insts : List EC2Instance) (tagKeys : List String) (port : Int)
    (m : List (String × TargetGroup)) (i1 i2 : EC2Instance) (ip1 ip2 : String)
    (hok : groupByTags insts tagKeys port = .ok m)
    (h1 : i1 ∈ insts) (h2 : i2 ∈ insts)
    (hr1 : i1.stateCode = 16) (hr2 : i2.stateCode = 16)
    (hip1 : i1.privateIpAddress = some ip1) (hip2 : i2.privateIpAddress = some ip2) :
    (∃ g, lookupTG m (groupKey tagKeys i1) = some g ∧
        lookupTG m (groupKey tagKeys i2) = some g ∧
        ip1 ++ ":" ++ toString port ∈ g.Targets ∧
        ip2 ++ ":" ++ toString port ∈ g.Targets) ↔
      groupKey tagKeys i1 = groupKey tagKeys i2 := by
  constructor
  · rintro ⟨g, e1, e2, -, -⟩
    rcases groupByTags_ok_lookup insts tagKeys port m _ g hok e1 with
      ⟨c1, -, hc1, -, hg1⟩
    rcases groupByTags_ok_lookup insts tagKeys port m _ g hok e2 with
      ⟨c2, -, hc2, -, hg2⟩
    have hk1 : groupKey tagKeys c1 = groupKey tagKeys i1 := by
      simp [contributes, isRunning] at hc1
      exact hc1.2
    have hk2 : groupKey tagKeys c2 = groupKey tagKeys i2 := by
      simp [contributes, isRunning] at hc2
      exact hc2.2
    have hlab : labelsFor tagKeys c1 = labelsFor tagKeys c2 :=
      congrArg TargetGroup.Labels (hg1.symm.trans hg2)
    rw [← hk1, ← hk2]
    exact labels_determine_key tagKeys c1 c2 hlab
  · intro hk
    have hcon1 : contributes tagKeys (groupKey tagKeys i1) i1 = true := by
      simp [contributes, isRunning, hr1]
    have hcon2 : contributes tagKeys (groupKey tagKeys i1) i2 = true := by
      simp [contributes, isRunning, hr2, hk]
    have hchar := groupByTags_char insts tagKeys port m hok (groupKey tagKeys i1)
    have hsome : (firstCreator tagKeys insts (groupKey tagKeys i1)).isSome := by
      rw [firstCreator, List.find?_isSome]
      exact ⟨i1, h1, hcon1⟩
    cases hfc : firstCreator tagKeys insts (groupKey tagKeys i1) with
    | none => rw [hfc] at hsome; cases hsome
    | some c =>
      rw [hfc] at hchar
      refine ⟨⟨targetsFor tagKeys port insts (groupKey tagKeys i1),
        labelsFor tagKeys c⟩, hchar, ?_, ?_, ?_⟩
      · rw [← hk]
        exact hchar
      · exact mem_targetsFor tagKeys port insts _ i1 _ h1 hcon1 (by simp [mkTarget, hip1])
      · exact mem_targetsFor tagKeys port insts _ i2 _ h2 hcon2 (by simp [mkTarget, hip2])

theorem C2_witness :
    (groupByTags
        [⟨16, some "10.0.0.1", [("Name", "web")]⟩,
          ⟨16, some "10.0.0.2", [("Name", "web")]⟩] ["Name"] 80 =
      .ok [("|Name=web",
        ⟨["10.0.0.1:80", "10.0.0.2:80"], [("Name", "web")]⟩)]) ∧
    ((∃ g, lookupTG [("|Name=web",
          (⟨["10.0.0.1:80", "10.0.0.2:80"], [("Name", "web")]⟩ : TargetGroup))]
            (groupKey ["Name"] ⟨16, some "10.0.0.1", [("Name", "web")]⟩) = some g ∧
        lookupTG [("|Name=web",
          (⟨["10.0.0.1:80", "10.0.0.2:80"], [("Name", "web")]⟩ : TargetGroup))]
            (groupKey ["Name"] ⟨16, some "10.0.0.2", [("Name", "web")]⟩) = some g ∧
        "10.0.0.1" ++ ":" ++ toString (80 : Int) ∈ g.Targets ∧
        "10.0.0.2" ++ ":" ++ toString (80 : Int) ∈ g.Targets) ↔
      groupKey ["Name"] ⟨16, some "10.0.0.1", [("Name", "web")]⟩ =
        groupKey ["Name"] ⟨16, some "10.0.0.2", [("Name", "web")]⟩) := by
  refine ⟨by decide, ?_⟩
  exact C2_partition
    [⟨16, some "10.0.0.1", [("Name", "web")]⟩, ⟨16, some "10.0.0.2", [("Name", "web")]⟩]
    ["Name"] 80 _ _ _ "10.0.0.1" "10.0.0.2" (by decide) (by decide) (by decide)
    (by decide) (by decide) (by decide) (by decide)

/-- C3: every target entry in every Target Group of a successful run was
derived from an instance whose lifecycle state code is 16 (`Running`) —
so a non-Running instance never appears, and since `groupByTags` never
reads the Health Set at all, this holds regardless of Health Set
membership. -/
theorem C3_only_running (insts : List EC2Instance) (tagKeys : List String)
    (port : Int) (m : List (String × TargetGroup)) (k : String) (g : TargetGroup)
    (t : String) (hok : groupByTags insts tagKeys port = .ok m)
    (hg : lookupTG m k = some g) (ht : t ∈ g.Targets) :
    ∃ i ∈ insts, i.stateCode = 16 ∧ groupKey tagKeys i = k ∧
      mkTarget port i = some t := by
  rcases groupByTags_ok_lookup insts tagKeys port m k g hok hg with ⟨c, -, -, -, hgval⟩
  rw [hgval] at ht
  rcases List.mem_filterMap.mp ht with ⟨i, hi, hmk⟩
  rcases List.mem_filter.mp hi with ⟨hins, hcon⟩
  simp only [contributes, isRunning, Bool.and_eq_true, beq_iff_eq] at hcon
  exact ⟨i, hins, hcon.1, hcon.2, hmk⟩

theorem C3_witness :
    (groupByTags
        [⟨16, some "10.0.0.1", [("Name", "web")]⟩,
          ⟨48, some "10.0.0.2", [("Name", "web")]⟩] ["Name"] 80 =
      .ok [("|Name=web", ⟨["10.0.0.1:80"], [("Name", "web")]⟩)]) ∧
    (∃ i ∈ [(⟨16, some "10.0.0.1", [("Name", "web")]⟩ : EC2Instance),
        ⟨48, some "10.0.0.2", [("Name", "web")]⟩],
      i.stateCode = 16 ∧ groupKey ["Name"] i = "|Name=web" ∧
        mkTarget 80 i = some "10.0.0.1:80") := by
  refine ⟨by decide, ?_⟩
  exact C3_only_running
    [⟨16, some "10.0.0.1", [("Name", "web")]⟩, ⟨48, some "10.0.0.2", [("Name", "web")]⟩]
    ["Name"] 80 [("|Name=web", ⟨["10.0.0.1:80"], [("Name", "web")]⟩)]
    "|Name=web" ⟨["10.0.0.1:80"], [("Name", "web")]⟩ "10.0.0.1:80"
    (by decide) (by decide) (by decide)

theorem foldl_labels_congr (i1 i2 : EC2Instance) :
    ∀ (l : List String) (acc : List (String × String)),
      (∀ k ∈ l, getTag i1 k = getTag i2 k) →
      l.foldl
          (fun labels tagKey =>
            let tagVal := getTag i1 tagKey
            if tagVal ≠ "" then mapInsert labels tagKey tagVal else labels) acc =
        l.foldl
          (fun labels tagKey =>
            let tagVal := getTag i2 tagKey
            if tagVal ≠ "" then mapInsert labels tagKey tagVal else labels) acc
  | [], _, _ => rfl
  | t :: rest, acc, h => by
    rw [List.foldl_cons, List.foldl_cons]
    have ht := h t (List.mem_cons_self t rest)
    rw [show (let tagVal := getTag i1 t
        if tagVal ≠ "" then mapInsert acc t tagVal else acc) =
        (let tagVal := getTag i2 t
        if tagVal ≠ "" then mapInsert acc t tagVal else acc) by rw [ht]]
    exact foldl_labels_congr i1 i2 rest _ fun k hk => h k (List.mem_cons_of_mem t hk)

theorem labelsFor_congr (tagKeys : List String) (i1 i2 : EC2Instance)
    (h : ∀ k ∈ tagKeys, getTag i1 k = getTag i2 k) :
    labelsFor tagKeys i1 = labelsFor tagKeys i2 :=
  foldl_labels_congr i1 i2 tagKeys [] h

/-- C10 (amended): a produced group's labels are exactly the selector
keys with non-empty tag value on the instance that first caused the
group's lazy creation, each mapped to that value (parts 1 and 2); they
are a function of that instance's per-selector tag values — instances
agreeing on every selector's tag value give the same signature and the
same labels, in particular an empty-string tag value behaves exactly
like an absent tag (part 3).  The labels are NOT in general determined
by the Grouping Signature alone: tag values containing `|` or `=` can
give two instances the same signature but different labels (see the
counterexample), so which eligible instance created the group can be
observable. -/
theorem C10_labels :
    (∀ (tagKeys : List String) (port : Int) (insts : List EC2Instance)
      (m : List (String × TargetGroup)) (k : String) (g : TargetGroup),
      groupByTags insts tagKeys port = .ok m → lookupTG m k = some g →
      ∃ i, firstCreator tagKeys insts k = some i ∧ i ∈ insts ∧
        i.stateCode = 16 ∧ groupKey tagKeys i = k ∧
        g.Labels = labelsFor tagKeys i) ∧
    (∀ (tagKeys : List String) (i : EC2Instance) (k : String),
      lookupLabel (labelsFor tagKeys i) k =
        if k ∈ tagKeys ∧ getTag i k ≠ "" then some (getTag i k) else none) ∧
    (∀ (tagKeys : List String) (i1 i2 : EC2Instance),
      (∀ k ∈ tagKeys, getTag i1 k = getTag i2 k) →
      groupKey tagKeys i1 = groupKey tagKeys i2 ∧
        labelsFor tagKeys i1 = labelsFor tagKeys i2) := by
  refine ⟨fun tagKeys port insts m k g hok hg => ?_,
    fun tagKeys i k => labelsFor_lookup tagKeys i k,
    fun tagKeys i1 i2 h => ⟨?_, labelsFor_congr tagKeys i1 i2 h⟩⟩
  · rcases groupByTags_ok_lookup insts tagKeys port m k g hok hg with
      ⟨c, hfc, hcon, hc, hgval⟩
    simp only [contributes, isRunning, Bool.and_eq_true, beq_iff_eq] at hcon
    exact ⟨c, hfc, hc, hcon.1, hcon.2, congrArg TargetGroup.Labels hgval⟩
  · rw [groupKey, groupKey]
    exact foldl_key_congr i1 i2 tagKeys "" h

theorem C10_witness :
    ((∀ k ∈ ["Name"], getTag ⟨16, some "10.0.0.1", [("Name", "")]⟩ k =
        getTag ⟨16, some "10.0.0.2", []⟩ k) ∧
      groupKey ["Name"] ⟨16, some "10.0.0.1", [("Name", "")]⟩ =
        groupKey ["Name"] ⟨16, some "10.0.0.2", []⟩ ∧
      labelsFor ["Name"] ⟨16, some "10.0.0.1", [("Name", "")]⟩ =
        labelsFor ["Name"] ⟨16, some "10.0.0.2", []⟩) ∧
    (groupByTags [⟨16, some "10.0.0.1", [("Name", "web")]⟩] ["Name"] 80 =
        .ok [("|Name=web", ⟨["10.0.0.1:80"], [("Name", "web")]⟩)] ∧
      ∃ i, firstCreator ["Name"] [⟨16, some "10.0.0.1", [("Name", "web")]⟩]
          "|Name=web" = some i ∧
        i ∈ [(⟨16, some "10.0.0.1", [("Name", "web")]⟩ : EC2Instance)] ∧
        i.stateCode = 16 ∧ groupKey ["Name"] i = "|Name=web" ∧
        (⟨["10.0.0.1:80"], [("Name", "web")]⟩ : TargetGroup).Labels =
          labelsFor ["Name"] i) := by
  refine ⟨⟨by decide, C10_labels.2.2 ["Name"] _ _ (by decide)⟩, by decide,
    C10_labels.1 ["Name"] 80 [⟨16, some "10.0.0.1", [("Name", "web")]⟩]
      [("|Name=web", ⟨["10.0.0.1:80"], [("Name", "web")]⟩)] "|Name=web"
      ⟨["10.0.0.1:80"], [("Name", "web")]⟩ (by decide) (by decide)⟩

/-- C10 counterexample to the claim as stated: with selectors `A, B`, the
instances `{A: "x|B=y"}` and `{A: "x", B: "y|B="}` have the SAME Grouping
Signature `"|A=x|B=y|B="` but different labels, so the labels mapping is
not determined by the signature, and which eligible instance first caused
the group's creation IS observable in the labels. -/
theorem C10_counterexample :
    groupKey ["A", "B"] ⟨16, some "10.0.0.1", [("A", "x|B=y")]⟩ =
      groupKey ["A", "B"] ⟨16, some "10.0.0.2", [("A", "x"), ("B", "y|B=")]⟩ ∧
    ((groupByTags
        [⟨16, some "10.0.0.1", [("A", "x|B=y")]⟩,
          ⟨16, some "10.0.0.2", [("A", "x"), ("B", "y|B=")]⟩] ["A", "B"] 80).toOption.bind
          (fun m => lookupTG m "|A=x|B=y|B=")).map TargetGroup.Labels =
      some [("A", "x|B=y")] ∧
    ((groupByTags
        [⟨16, some "10.0.0.2", [("A", "x"), ("B", "y|B=")]⟩,
          ⟨16, some "10.0.0.1", [("A", "x|B=y")]⟩] ["A", "B"] 80).toOption.bind
          (fun m => lookupTG m "|A=x|B=y|B=")).map TargetGroup.Labels =
      some [("A", "x"), ("B", "y|B=")] := by
  decide

/-! ### Serializer (C6) -/

theorem lookupTG_some_mem (m : List (String × TargetGroup)) (k : String)
    (g : TargetGroup) (h : lookupTG m k = some g) : (k, g) ∈ m := by
  rw [lookupTG] at h
  rcases Option.map_eq_some'.mp h with ⟨e, hfind, he2⟩
  have hmem := List.mem_of_find?_eq_some hfind
  have hpred := List.find?_some hfind
  rcases e with ⟨ek, eg⟩
  simp only [beq_iff_eq] at hpred
  cases hpred
  cases he2
  exact hmem

theorem mem_lookupTG : ∀ (m : List (String × TargetGroup)),
    (keysOfTG m).Nodup → ∀ (k : String) (g : TargetGroup),
    (k, g) ∈ m → lookupTG m k = some g
  | [], _, _, _, h => absurd h (List.not_mem_nil _)
  | e :: m, hnd, k, g, h => by
    have hnd' := List.nodup_cons.mp (show (e.1 :: keysOfTG m).Nodup from hnd)
    rcases List.mem_cons.mp h with rfl | hmem
    · rw [lookupTG_cons, if_pos rfl]
    · rw [lookupTG_cons, if_neg, mem_lookupTG m hnd'.2 k g hmem]
      intro hek
      exact hnd'.1 (hek ▸ List.mem_map.mpr ⟨(k, g), hmem, rfl⟩)

theorem filterMap_pair_snd (h : String → Option TargetGroup) :
    ∀ l : List String,
      (l.filterMap (fun k => (h k).map (fun g => (k, g)))).map (·.2) = l.filterMap h
  | [] => rfl
  | k :: l => by
    cases hk : h k <;>
      simp [List.filterMap_cons, hk, filterMap_pair_snd h l]

theorem filterMap_pair_fst (h : String → Option TargetGroup) :
    ∀ l : List String,
      (l.filterMap (fun k => (h k).map (fun g => (k, g)))).map (·.1) =
        l.filter (fun k => (h k).isSome)
  | [] => rfl
  | k :: l => by
    cases hk : h k <;>
      simp [List.filterMap_cons, List.filter_cons, hk, filterMap_pair_fst h l]

theorem mem_filterMap_pair (h : String → Option TargetGroup) (l : List String)
    (k : String) (g : TargetGroup) :
    (k, g) ∈ l.filterMap (fun k' => (h k').map (fun g' => (k', g'))) ↔
      k ∈ l ∧ h k = some g := by
  rw [List.mem_filterMap]
  constructor
  · rintro ⟨k', hk', he⟩
    rcases Option.map_eq_some'.mp he with ⟨g', hg', hpair⟩
    cases hpair
    exact ⟨hk', hg'⟩
  · rintro ⟨hk, hg⟩
    exact ⟨k, hk, by rw [hg]; rfl⟩

theorem filterMap_pair_pairwise (h : String → Option TargetGroup) :
    ∀ l : List String, l.Pairwise (fun a b => strLe a b = true) →
      (l.filterMap (fun k => (h k).map (fun g => (k, g)))).Pairwise
        (fun a b => strLe a.1 b.1 = true)
  | [], _ => List.Pairwise.nil
  | k :: l, hp => by
    rcases List.pairwise_cons.mp hp with ⟨hk, hl⟩
    cases hh : h k with
    | none => simpa [List.filterMap_cons, hh] using filterMap_pair_pairwise h l hl
    | some g =>
      rw [List.filterMap_cons]
      simp only [hh, Option.map_some']
      refine List.pairwise_cons.mpr ⟨?_, filterMap_pair_pairwise h l hl⟩
      rintro ⟨k', g'⟩ hmem
      exact hk k' ((mem_filterMap_pair h l k' g').mp hmem).1

/-- C6: the serializer emits exactly the Target Groups of the mapping
(`List.Perm`), arranged in ascending lexicographic order of their Grouping
Signatures (`Pairwise`), rendered by the 2-space-indented document model
`renderTargetGroupList`. -/
theorem C6_serializer (m : List (String × TargetGroup)) (h : (keysOfTG m).Nodup) :
    ∃ ms : List (String × TargetGroup),
      List.Perm ms m ∧
      ms.Pairwise (fun a b => strLe a.1 b.1 = true) ∧
      marshalTargetGroups m = renderTargetGroupList (ms.map (·.2)) := by
  refine ⟨(sortStrings (keysOfTG m)).filterMap
    (fun k => (lookupTG m k).map (fun g => (k, g))), ?_, ?_, ?_⟩
  · have hsorted_nodup : (sortStrings (keysOfTG m)).Nodup :=
      ((sortStrings_perm _).nodup_iff).mpr h
    have hms_nodup :
        ((sortStrings (keysOfTG m)).filterMap
          (fun k => (lookupTG m k).map (fun g => (k, g)))).Nodup := by
      apply List.Nodup.of_map (·.1)
      rw [filterMap_pair_fst]
      exact hsorted_nodup.filter _
    have hm_nodup : m.Nodup :=
      List.Nodup.of_map (·.1) (show (m.map (·.1)).Nodup from h)
    rw [List.perm_ext_iff_of_nodup hms_nodup hm_nodup]
    rintro ⟨k, g⟩
    rw [mem_filterMap_pair, (sortStrings_perm _).mem_iff]
    constructor
    · rintro ⟨hk, hg⟩
      exact lookupTG_some_mem m k g hg
    · intro hmem
      exact ⟨List.mem_map.mpr ⟨(k, g), hmem, rfl⟩, mem_lookupTG m h k g hmem⟩
  · exact filterMap_pair_pairwise (lookupTG m) _ (sortStrings_sorted _)
  · rw [filterMap_pair_snd]
    rfl

theorem C6_witness :
    (keysOfTG [("|Name=web", (⟨["10.0.0.2:80"], [("Name", "web")]⟩ : TargetGroup)),
      ("|Name=db", ⟨["10.0.0.1:80"], [("Name", "db")]⟩)]).Nodup ∧
    (∃ ms : List (String × TargetGroup),
      List.Perm ms [("|Name=web", ⟨["10.0.0.2:80"], [("Name", "web")]⟩),
        ("|Name=db", ⟨["10.0.0.1:80"], [("Name", "db")]⟩)] ∧
      ms.Pairwise (fun a b => strLe a.1 b.1 = true) ∧
      marshalTargetGroups [("|Name=web", ⟨["10.0.0.2:80"], [("Name", "web")]⟩),
          ("|Name=db", ⟨["10.0.0.1:80"], [("Name", "db")]⟩)] =
        renderTargetGroupList (ms.map (·.2))) ∧
    marshalTargetGroups [("|Name=web", ⟨["10.0.0.2:80"], [("Name", "web")]⟩),
        ("|Name=db", ⟨["10.0.0.1:80"], [("Name", "db")]⟩)] =
      "[\n  \x7b\n    \"targets\": [\n      \"10.0.0.1:80\"\n    ],\n    \"labels\": \x7b\n      \"Name\": \"db\"\n    \x7d\n  \x7d,\n  \x7b\n    \"targets\": [\n      \"10.0.0.2:80\"\n    ],\n    \"labels\": \x7b\n      \"Name\": \"web\"\n    \x7d\n  \x7d\n]" :=
  ⟨by decide, C6_serializer _ (by decide), by rfl⟩

/-! ### Atomic Publisher (C7) -/

theorem find?_filter_ne (files : List (String × String)) (p p' : String)
    (h : p' ≠ p) :
    (files.filter (fun e => e.1 != p)).find? (fun e => e.1 == p') =
      files.find? (fun e => e.1 == p') := by
  induction files with
  | nil => rfl
  | cons e files ih =>
    rw [List.filter_cons]
    by_cases hep : e.1 = p
    · rw [if_neg (by simp [hep]), List.find?_cons,
        show (e.1 == p') = false by simp [hep]; exact fun hh => h hh.symm]
      exact ih
    · rw [if_pos (by simp [hep]), List.find?_cons, List.find?_cons]
      cases he' : e.1 == p'
      · exact ih
      · rfl

theorem FS.lookup_set_self (fs : FS) (p c : String) :
    (fs.set p c).lookup p = some c := by
  simp [FS.set, FS.lookup, List.find?_cons]

theorem FS.lookup_set_ne (fs : FS) (p c p' : String) (h : p' ≠ p) :
    (fs.set p c).lookup p' = fs.lookup p' := by
  rw [FS.set, FS.lookup, FS.lookup]
  simp only [List.find?_cons, show (p == p') = false by
    simp; exact fun hh => h hh.symm]
  rw [find?_filter_ne fs.files p p' h]

theorem FS.lookup_remove_self (fs : FS) (p : String) :
    (fs.remove p).lookup p = none := by
  rw [FS.remove, FS.lookup]
  simp only [Option.map_eq_none', List.find?_eq_none]
  intro e he
  have := (List.mem_filter.mp he).2
  simpa using this

theorem FS.lookup_remove_ne (fs : FS) (p p' : String) (h : p' ≠ p) :
    (fs.remove p).lookup p' = fs.lookup p' := by
  rw [FS.remove, FS.lookup, FS.lookup]
  rw [find?_filter_ne fs.files p p' h]

theorem append_suffix_ne (filename tmpSuffix : String) (h : tmpSuffix ≠ "") :
    filename ++ tmpSuffix ≠ filename := by
  intro he
  apply h
  have hlen := congrArg String.length he
  rw [String.length_append] at hlen
  have hzero : tmpSuffix.length = 0 := by omega
  cases tmpSuffix with
  | mk data =>
    cases data with
    | nil => rfl
    | cons c cs => simp [String.length] at hzero

/-- C7: the publisher writes to the sibling temp path and renames it onto
the destination (part 1: on success the destination holds the bytes and
the temp file is gone); a failing temp write returns an error and leaves
the destination's content untouched (part 2); a failing rename returns an
error, leaves the destination untouched and at most a temp artifact
behind (part 3); destination `"-"` bypasses the temp/rename mechanism
entirely and appends the bytes to standard output with no file-system
change (part 4). -/
theorem C7_atomic_publisher :
    (∀ (filename data tmpSuffix : String) (fs : FS) (o : WriteOracle),
      tmpSuffix ≠ "" → o.writeOk = true → o.renameOk = true →
      (atomicWriteFile filename data tmpSuffix fs o).1 = none ∧
      ((atomicWriteFile filename data tmpSuffix fs o).2.lookup filename = some data ∧
       (atomicWriteFile filename data tmpSuffix fs o).2.lookup (filename ++ tmpSuffix) =
         none)) ∧
    (∀ (filename data tmpSuffix : String) (fs : FS) (o : WriteOracle),
      tmpSuffix ≠ "" → o.writeOk = false →
      (∃ e, (atomicWriteFile filename data tmpSuffix fs o).1 = some e) ∧
      (atomicWriteFile filename data tmpSuffix fs o).2.lookup filename =
        fs.lookup filename) ∧
    (∀ (filename data tmpSuffix : String) (fs : FS) (o : WriteOracle),
      tmpSuffix ≠ "" → o.writeOk = true → o.renameOk = false →
      (∃ e, (atomicWriteFile filename data tmpSuffix fs o).1 = some e) ∧
      (atomicWriteFile filename data tmpSuffix fs o).2.lookup filename =
        fs.lookup filename ∧
      (atomicWriteFile filename data tmpSuffix fs o).2.lookup (filename ++ tmpSuffix) =
        some data) ∧
    (∀ (b : String) (st : OutState) (o : WriteOracle),
      publish "-" b st o = (none, ⟨st.fs, st.stdout ++ b⟩)) := by
  have hne : ∀ filename tmpSuffix : String, tmpSuffix ≠ "" →
      filename ≠ filename ++ tmpSuffix :=
    fun f sfx h => (append_suffix_ne f sfx h).symm
  refine ⟨fun f d sfx fs o hs hw hr => ?_, fun f d sfx fs o hs hw => ?_,
    fun f d sfx fs o hs hw hr => ?_, fun b st o => rfl⟩
  · rw [atomicWriteFile, writeFileOp, if_pos (by rw [hw])]
    have htemp : (fs.set (f ++ sfx) d).lookup (f ++ sfx) = some d :=
      FS.lookup_set_self fs (f ++ sfx) d
    dsimp only
    rw [renameOp, if_pos (by rw [hr]), htemp]
    dsimp only
    refine ⟨rfl, ?_, ?_⟩
    · exact FS.lookup_set_self _ f d
    · rw [FS.lookup_set_ne _ f d (f ++ sfx) (append_suffix_ne f sfx hs)]
      exact FS.lookup_remove_self _ (f ++ sfx)
  · rw [atomicWriteFile, writeFileOp, if_neg (by rw [hw]; exact Bool.false_ne_true)]
    exact ⟨⟨"write failed", rfl⟩,
      FS.lookup_set_ne fs (f ++ sfx) o.writeLeftover f (hne f sfx hs)⟩
  · rw [atomicWriteFile, writeFileOp, if_pos (by rw [hw])]
    dsimp only
    rw [renameOp, if_neg (by rw [hr]; exact Bool.false_ne_true)]
    exact ⟨⟨"rename failed", rfl⟩,
      FS.lookup_set_ne fs (f ++ sfx) d f (hne f sfx hs),
      FS.lookup_set_self fs (f ++ sfx) d⟩

theorem C7_witness :
    ((".new" : String) ≠ "" ∧
      (atomicWriteFile "out.json" "[]" ".new" ⟨[("out.json", "old")]⟩
        ⟨true, "", true⟩).1 = none ∧
      (atomicWriteFile "out.json" "[]" ".new" ⟨[("out.json", "old")]⟩
        ⟨true, "", true⟩).2.lookup "out.json" = some "[]") ∧
    ((atomicWriteFile "out.json" "[]" ".new" ⟨[("out.json", "old")]⟩
        ⟨false, "[", true⟩).2.lookup "out.json" = some "old") ∧
    ((atomicWriteFile "out.json" "[]" ".new" ⟨[("out.json", "old")]⟩
        ⟨true, "", false⟩).2.lookup "out.json" = some "old") ∧
    publish "-" "[]" ⟨⟨[]⟩, ""⟩ ⟨true, "", true⟩ = (none, ⟨⟨[]⟩, "[]"⟩) := by
  refine ⟨⟨by decide, ?_⟩, ?_, ?_, ?_⟩
  · have h := C7_atomic_publisher.1 "out.json" "[]" ".new" ⟨[("out.json", "old")]⟩
      ⟨true, "", true⟩ (by decide) (by decide) (by decide)
    exact ⟨h.1, h.2.1⟩
  · have h := C7_atomic_publisher.2.1 "out.json" "[]" ".new" ⟨[("out.json", "old")]⟩
      ⟨false, "[", true⟩ (by decide) (by decide)
    rw [h.2]
    decide
  · have h := C7_atomic_publisher.2.2.1 "out.json" "[]" ".new" ⟨[("out.json", "old")]⟩
      ⟨true, "", false⟩ (by decide) (by decide) (by decide)
    rw [h.2.1]
    decide
  · exact C7_atomic_publisher.2.2.2 "[]" ⟨⟨[]⟩, ""⟩ ⟨true, "", true⟩

/-! ### Determinism of the pipeline (C8) -/

/-- C8: with the instance set, health filtering and selector sequence
fixed, two runs of the core pipeline produce byte-identical output even
though the two Go map iterations (`allTagKeys` collection, serializer key
collection) may enumerate their maps in different orders: any two valid
enumerations lead to the same Output Document. -/
theorem C8_determinism (insts : List EC2Instance) (tags : Tags) (port : Int)
    (eTag eTag' fGrp fGrp' : List String) (m m' : List (String × TargetGroup))
    (heT : enumOK eTag (collectTagKeys insts))
    (heT' : enumOK eTag' (collectTagKeys insts))
    (hm : groupByTags insts (runKeys tags eTag) port = .ok m)
    (hm' : groupByTags insts (runKeys tags eTag') port = .ok m')
    (hf : enumOK fGrp (keysOfTG m)) (hf' : enumOK fGrp' (keysOfTG m')) :
    runCore insts tags port eTag fGrp = runCore insts tags port eTag' fGrp' := by
  have hkeys : runKeys tags eTag = runKeys tags eTag' := by
    rw [runKeys, runKeys]
    by_cases h : (Tags.Keys tags).length = 0
    · rw [if_pos h, if_pos h, allTagKeysEnum, allTagKeysEnum]
      exact sortStrings_congr heT.1 heT'.1 fun k => (heT.2 k).trans (heT'.2 k).symm
    · rw [if_neg h, if_neg h]
  have hmm : m = m' := by
    rw [hkeys] at hm
    rw [hm] at hm'
    exact (Except.ok.injEq _ _).mp hm'
  subst hmm
  rw [runCore, runCore, hkeys, hm']
  dsimp only
  have hsort : sortStrings fGrp = sortStrings fGrp' :=
    sortStrings_congr hf.1 hf'.1 fun k => (hf.2 k).trans (hf'.2 k).symm
  rw [marshalWithEnum, marshalWithEnum, hsort]

theorem C8_witness :
    (enumOK ["Team", "Region"]
        (collectTagKeys
          [⟨16, some "10.0.0.1", [("Team", "x")]⟩,
            ⟨16, some "10.0.0.2", [("Region", "y")]⟩]) ∧
      enumOK ["Region", "Team"]
        (collectTagKeys
          [⟨16, some "10.0.0.1", [("Team", "x")]⟩,
            ⟨16, some "10.0.0.2", [("Region", "y")]⟩])) ∧
    runCore [⟨16, some "10.0.0.1", [("Team", "x")]⟩,
        ⟨16, some "10.0.0.2", [("Region", "y")]⟩] [] 80
      ["Team", "Region"] ["|Region=|Team=x", "|Region=y|Team="] =
    runCore [⟨16, some "10.0.0.1", [("Team", "x")]⟩,
        ⟨16, some "10.0.0.2", [("Region", "y")]⟩] [] 80
      ["Region", "Team"] ["|Region=y|Team=", "|Region=|Team=x"] := by
  have hmem2 : ∀ k : String, k ∈ ["Team", "Region"] ↔ k ∈ ["Region", "Team"] := by
    intro k
    simp only [List.mem_cons, List.not_mem_nil, or_false]
    tauto
  have hcollect : collectTagKeys
      [⟨16, some "10.0.0.1", [("Team", "x")]⟩,
        ⟨16, some "10.0.0.2", [("Region", "y")]⟩] = ["Team", "Region"] := by decide
  have he1 : enumOK ["Team", "Region"]
      (collectTagKeys
        [⟨16, some "10.0.0.1", [("Team", "x")]⟩,
          ⟨16, some "10.0.0.2", [("Region", "y")]⟩]) := by
    rw [hcollect]
    exact ⟨by decide, fun k => Iff.rfl⟩
  have he2 : enumOK ["Region", "Team"]
      (collectTagKeys
        [⟨16, some "10.0.0.1", [("Team", "x")]⟩,
          ⟨16, some "10.0.0.2", [("Region", "y")]⟩]) := by
    rw [hcollect]
    exact ⟨by decide, fun k => (hmem2 k).symm⟩
  refine ⟨⟨he1, he2⟩, ?_⟩
  refine C8_determinism _ [] 80 _ _ _ _
    [("|Region=|Team=x", ⟨["10.0.0.1:80"], [("Team", "x")]⟩),
      ("|Region=y|Team=", ⟨["10.0.0.2:80"], [("Region", "y")]⟩)]
    [("|Region=|Team=x", ⟨["10.0.0.1:80"], [("Team", "x")]⟩),
      ("|Region=y|Team=", ⟨["10.0.0.2:80"], [("Region", "y")]⟩)]
    he1 he2 (by decide) (by decide) ⟨by decide, fun k => Iff.rfl⟩
    ⟨by decide, fun k => ?_⟩
  simp only [keysOfTG, List.map_cons, List.map_nil, List.mem_cons,
    List.not_mem_nil, or_false]
  tauto

end ElbDiscovery
